import Mathlib

/-!
Verification of the countdown-bot core engine (`src/models.py`, `src/botUtilities.py`).

Modelling conventions:
* Python `int` is `Int` (unbounded); message numbers and author ids are `Int`.
  Python `%` on a positive modulus is floored modulo, which agrees with `Int.emod`
  (Lean's `%` on `Int`) whenever the modulus is positive, as it always is here.
* `datetime` values are `ℚ`, measured in days, so `timedelta(days=1)` is `1`
  and `(t2 - t1) / timedelta(days=1)` is `t2 - t1`.
* Python division raises `ZeroDivisionError` on a zero divisor, so arithmetic
  that divides is modelled in the `Except` monad through `pydiv`.
* Exceptions raised by the source (`EmptyCountdownError`, `MessageNotAllowedError`,
  `MessageIncorrectError`, `ZeroDivisionError`, `IndexError`) are constructors of
  `CountdownError`; raising leaves the countdown state unchanged, which the
  `stepMessage` wrapper makes explicit.
* The `while` loops of `Countdown.leaderboard`'s prime search and of
  `Countdown.eta` are embedded with an explicit iteration budget; exhausting it
  (`outOfFuel`) models non-termination and is proved unreachable where needed.
* Fields of the ORM classes that the engine never reads (`id`, `countdown_id`,
  back references) are omitted from the `Message` record.
-/

namespace CountdownBot

/-- The engine-relevant fields of the `Message` ORM class in `models.py`. -/
structure Message where
  author_id : Int
  timestamp : ℚ
  number : Int
deriving DecidableEq

instance : Inhabited Message := ⟨⟨0, 0, 0⟩⟩

/-- The exceptions the countdown engine can raise. -/
inductive CountdownError
  | emptyCountdown
  | messageNotAllowed
  | messageIncorrect
  | zeroDivision
  | indexError
  | outOfFuel
deriving DecidableEq

deriving instance DecidableEq for Except

/-- Python division: raises `ZeroDivisionError` on a zero divisor. -/
def pydiv (a b : ℚ) : Except CountdownError ℚ :=
  if b = 0 then .error .zeroDivision else .ok (a / b)

/-- `Countdown.addMessage` from `models.py`: reject when the author posted the
last message, else reject when the number is not one less than the last number,
else append.  The countdown state is its message list. -/
def Countdown.addMessage (msgs : List Message) (m : Message) :
    Except CountdownError (List Message) :=
  match msgs.getLast? with
  | some last =>
    if m.author_id = last.author_id then .error .messageNotAllowed
    else if m.number + 1 ≠ last.number then .error .messageIncorrect
    else .ok (msgs ++ [m])
  | none => .ok (msgs ++ [m])

/-- One attempted append as seen by the countdown state: a raised exception
leaves `self.messages` unchanged. -/
def stepMessage (msgs : List Message) (m : Message) : List Message :=
  match Countdown.addMessage msgs m with
  | .ok l => l
  | .error _ => msgs

/-- Replaying a stream of candidate messages against an initially empty
countdown: the only mutation path into a countdown. -/
def applyCandidates (cs : List Message) : List Message :=
  cs.foldl stepMessage []

/-- The relation between two consecutive accepted messages. -/
def consecOk (a b : Message) : Prop :=
  b.number = a.number - 1 ∧ b.author_id ≠ a.author_id

/-- The dictionary returned by `Countdown.progress` in `models.py`. -/
structure ProgressStats where
  total : Int
  current : Int
  percentage : ℚ
  progressList : List (ℚ × Int)
  start : ℚ
  rate : ℚ
  eta : ℚ
deriving DecidableEq

/-- `Countdown.progress` from `models.py`.  `now` stands for `datetime.utcnow()`.
The percentage is computed before the rate, exactly as in the source, so a zero
`total` raises `ZeroDivisionError` in every branch. -/
def Countdown.progress : List Message → ℚ → Except CountdownError ProgressStats
  | [], _ => .error .emptyCountdown
  | first :: rest, now => do
    let lastM := (first :: rest).getLast (List.cons_ne_nil first rest)
    let total := first.number
    let current := lastM.number
    let frac ← pydiv ((total : ℚ) - (current : ℚ)) (total : ℚ)
    let percentage := frac * 100
    let start := first.timestamp
    let re ←
      if (first :: rest).length > 1 ∧ current = 0 then do
        let rate ← pydiv ((total : ℚ) - (current : ℚ)) (lastM.timestamp - first.timestamp)
        pure (rate, lastM.timestamp)
      else if (first :: rest).length > 1 then do
        let rate ← pydiv ((total : ℚ) - (current : ℚ)) (now - first.timestamp)
        let d ← pydiv (current : ℚ) rate
        pure (rate, now + d)
      else
        pure ((0 : ℚ), now)
    pure { total := total, current := current, percentage := percentage,
           progressList := (first :: rest).map (fun x => (x.timestamp, x.number)),
           start := start, rate := re.1, eta := re.2 }

/-- The ten scoring categories of `POINT_RULES` in `models.py`. -/
inductive Category
  | c1000
  | c1001
  | c200
  | c201
  | c100
  | c101
  | primeNumbers
  | oddNumbers
  | evenNumbers
  | firstNumber
deriving DecidableEq

/-- The point values of `POINT_RULES` in `models.py`. -/
def Category.points : Category → Nat
  | .c1000 => 1000
  | .c1001 => 500
  | .c200 => 200
  | .c201 => 100
  | .c100 => 100
  | .c101 => 50
  | .primeNumbers => 15
  | .oddNumbers => 12
  | .evenNumbers => 10
  | .firstNumber => 0

/-- The categories in the insertion order of the breakdown dictionary built in
`Countdown.leaderboard` (the iteration order of `.values()` in the source). -/
def Category.all : List Category :=
  [.c1000, .c1001, .c200, .c201, .c100, .c101,
   .primeNumbers, .oddNumbers, .evenNumbers, .firstNumber]

/-- The classification `if`/`elif` chain in the scoring loop of
`Countdown.leaderboard` in `models.py`; `total` is `self.messages[0].number`. -/
def classify (total : Int) (primes : List Int) (n : Int) : Category :=
  if n = total then .firstNumber
  else if n % 1000 = 0 then .c1000
  else if n % 1000 = 1 then .c1001
  else if n % 200 = 0 then .c200
  else if n % 200 = 1 then .c201
  else if n % 100 = 0 then .c100
  else if n % 100 = 1 then .c101
  else if n ∈ primes then .primeNumbers
  else if n % 2 = 1 then .oddNumbers
  else .evenNumbers

/-- Modelled from the spec: evaluate an explicit ordered rule table, first match
wins, with "Even Numbers" as the final catch-all.  Used to state that the
source's `if`/`elif` chain realises the spec's precedence-ordered rule list. -/
def applyRules : List ((Int → Bool) × Category) → Int → Category
  | [], _ => .evenNumbers
  | (p, c) :: rest, n => if p n then c else applyRules rest n

/-- Modelled from the spec: the fixed precedence-ordered rule table of §4.4
(First Number, 1000s, 1001s, 200s, 201s, 100s, 101s, Prime Numbers, Odd
Numbers; rule 10, Even Numbers, is `applyRules`' catch-all). -/
def specRules (total : Int) (primes : List Int) : List ((Int → Bool) × Category) :=
  [(fun n => n == total, .firstNumber),
   (fun n => n % 1000 == 0, .c1000),
   (fun n => n % 1000 == 1, .c1001),
   (fun n => n % 200 == 0, .c200),
   (fun n => n % 200 == 1, .c201),
   (fun n => n % 100 == 0, .c100),
   (fun n => n % 100 == 1, .c101),
   (fun n => decide (n ∈ primes), .primeNumbers),
   (fun n => n % 2 == 1, .oddNumbers)]

/-- Modelled from the spec: `classify(message, total, primes)` as the first
matching rule of the ordered table. -/
def classifySpec (total : Int) (primes : List Int) (n : Int) : Category :=
  applyRules (specRules total primes) n

/-- The inner `search` loop of the prime computation in `Countdown.leaderboard`:
scan `primes[search:]` (the scan starts at `search = 1`, so the caller passes
`primes.tail`).  `some false` is the `curTest % primes[search] == 0` exit
(composite), `some true` the `primes[search] > math.sqrt(curTest)` exit (prime;
for naturals and a correctly rounded square root, `p > sqrt c` is `p * p > c`),
and `none` is the `IndexError` the source would raise when the scan falls off
the end of the list. -/
def scanDivisor (c : Nat) : List Nat → Option Bool
  | [] => none
  | p :: rest =>
    if c % p = 0 then some false
    else if p * p > c then some true
    else scanDivisor c rest

/-- The outer `while curTest < n` loop of the prime computation in
`Countdown.leaderboard`, with an explicit iteration budget (`none` on
exhaustion; each iteration advances `curTest` by 2, so `n` iterations always
suffice from `curTest = 5`). -/
def sieveLoop (n : Nat) : Nat → Nat → List Nat → Option (List Nat)
  | 0, curTest, primes => if curTest < n then none else some primes
  | fuel + 1, curTest, primes =>
    if curTest < n then
      match scanDivisor curTest primes.tail with
      | none => none
      | some false => sieveLoop n fuel (curTest + 2) primes
      | some true => sieveLoop n fuel (curTest + 2) (primes ++ [curTest])
    else some primes

/-- The prime list computed at the top of `Countdown.leaderboard`:
`curTest = 5`, `search = 1`, `primes = [2, 3]`, loop while `curTest < n`. -/
def getPrimes (n : Nat) : Option (List Nat) :=
  sieveLoop n n 5 [2, 3]

/-- One leaderboard entry as built by `Countdown.leaderboard`. -/
structure LBEntry where
  author : Int
  breakdown : Category → Nat
  contributions : Nat
  points : Nat

/-- The all-zero breakdown dictionary a new author starts with. -/
def emptyBreakdown : Category → Nat := fun _ => 0

/-- Increment one category count of a breakdown. -/
def bumpCategory (bd : Category → Nat) (c : Category) : Category → Nat :=
  fun c2 => if c2 = c then bd c + 1 else bd c2

/-- One step of the scoring loop of `Countdown.leaderboard`: the `points`
dictionary (in insertion order, as Python dicts iterate) gets the author added
with an all-zero breakdown if absent, and the author's count for category `c`
is incremented. -/
def updateTally (t : List (Int × (Category → Nat))) (a : Int) (c : Category) :
    List (Int × (Category → Nat)) :=
  match t with
  | [] => [(a, bumpCategory emptyBreakdown c)]
  | (b, bd) :: rest =>
    if b = a then (b, bumpCategory bd c) :: rest else (b, bd) :: updateTally rest a c

/-- The ranked-leaderboard step of `Countdown.leaderboard`: `contributions` is
`sum(breakdown.values())` and `points` is `sum(breakdown[x] * POINT_RULES[x])`,
both iterated in the dictionary order `Category.all`. -/
def mkEntry (a : Int) (bd : Category → Nat) : LBEntry :=
  { author := a, breakdown := bd,
    contributions := (Category.all.map bd).sum,
    points := (Category.all.map (fun c => bd c * c.points)).sum }

/-- `Countdown.leaderboard` from `models.py`: compute the primes below
`messages[0].number`, classify every message, tally per-author breakdowns in
first-appearance order, and sort by points descending (`sorted` with
`reverse=True` is a stable descending sort, as is `mergeSort` with this
comparator). -/
def Countdown.leaderboard (msgs : List Message) :
    Except CountdownError (List LBEntry) :=
  match msgs with
  | [] => .error .emptyCountdown
  | first :: rest =>
    match getPrimes first.number.toNat with
    | none => .error .indexError
    | some primesN =>
      let primes : List Int := primesN.map (fun p => (p : Int))
      let tally := (first :: rest).foldl
        (fun t mm => updateTally t mm.author_id (classify first.number primes mm.number)) []
      .ok ((tally.map (fun e => mkEntry e.1 e.2)).mergeSort
        (fun e1 e2 => decide (e2.points ≤ e1.points)))

/-- The character class of the regex `^[0-9,]+` in `parseMessage`
(`botUtilities.py`). -/
def isGroupChar (ch : Char) : Bool := ch.isDigit || ch == ','

/-- `int(...)` on a non-empty string of decimal digits. -/
def digitsVal (ds : List Char) : Nat :=
  ds.foldl (fun acc ch => acc * 10 + (ch.toNat - 48)) 0

/-- The numeric part of `parseMessage` in `botUtilities.py`:
`int(re.findall("^[0-9,]+", content)[0].replace(",",""))`.  `none` covers both
failure modes, each swallowed by the bare `except:` of `addMessage`: the
`IndexError` when the text does not start with a digit or comma (`findall`
returns no match) and the `ValueError` when the matched run is all commas
(`int("")`). -/
def parseNumber (s : List Char) : Option Int :=
  let run := s.takeWhile isGroupChar
  if run = [] then none
  else
    let ds := run.filter (fun ch => ch != ',')
    if ds = [] then none
    else some (digitsVal ds)

/-- The state-relevant behaviour of `addMessage` in `botUtilities.py`: parse the
raw text, try to append, and swallow every exception, returning whether the
message was added.  (The reaction/pin side effects are chat-platform signals
outside the engine.) -/
def addMessageBot (msgs : List Message) (authorId : Int) (ts : ℚ) (content : List Char) :
    List Message × Bool :=
  match parseNumber content with
  | none => (msgs, false)
  | some n =>
    match Countdown.addMessage msgs ⟨authorId, ts, n⟩ with
    | .ok l => (l, true)
    | .error _ => (msgs, false)

/-- The inner `while` of `Countdown.eta` in `models.py`: advance `lastMessage`
to the last message strictly before the current period boundary. -/
def advanceLast (msgs : List Message) (tz periodEnd : ℚ) (i : Nat) : Nat :=
  if h : i + 1 < msgs.length then
    if (msgs.get ⟨i + 1, h⟩).timestamp + tz < periodEnd then
      advanceLast msgs tz periodEnd (i + 1)
    else i
  else i
termination_by msgs.length - i

/-- The outer `while periodEnd < end` of `Countdown.eta`, with an explicit
iteration budget (the Python loop never terminates when `period ≤ 0`). -/
def etaLoop (msgs : List Message) (tz startT endT period : ℚ) :
    Nat → ℚ → Nat → List ℚ → List ℚ → Except CountdownError (List ℚ × List ℚ)
  | 0, _, _, _, _ => .error .outOfFuel
  | fuel + 1, periodEnd, lastMessage, times, etas =>
    if periodEnd < endT then
      let li := advanceLast msgs tz periodEnd lastMessage
      match pydiv ((msgs.headI.number : ℚ) - ((msgs.getD li default).number : ℚ))
          (periodEnd - startT) with
      | .error e => .error e
      | .ok rate =>
        match pydiv (((msgs.getD li default).number : ℚ)) rate with
        | .error e => .error e
        | .ok d =>
          etaLoop msgs tz startT endT period fuel (periodEnd + period) li
            (times ++ [periodEnd]) (etas ++ [periodEnd + d])
    else .ok (times, etas)

/-- `Countdown.eta` from `models.py`.  Despite the source comment "Make sure
countdown has at least two messages", the guard only rejects an empty list.
`now` stands for `datetime.utcnow()`. -/
def Countdown.eta (msgs : List Message) (tz now period : ℚ) :
    Except CountdownError (List ℚ × List ℚ) :=
  match msgs with
  | [] => .error .emptyCountdown
  | first :: rest => do
    let startT := first.timestamp + tz
    let endT :=
      if ((first :: rest).getLast (List.cons_ne_nil first rest)).number = 0 then
        ((first :: rest).getLast (List.cons_ne_nil first rest)).timestamp + tz
      else now + tz
    let fuel := (⌈(endT - startT) / period⌉).toNat + 1
    let data ← etaLoop (first :: rest) tz startT endT period fuel (startT + period) 0
      [startT] [startT]
    let pr ← Countdown.progress (first :: rest) now
    pure (data.1 ++ [endT], data.2 ++ [pr.eta])

section Theorems

theorem addMessage_ok_iff (msgs : List Message) (m : Message) (l : List Message) :
    Countdown.addMessage msgs m = .ok l ↔
      l = msgs ++ [m] ∧
        ∀ last ∈ msgs.getLast?, m.author_id ≠ last.author_id ∧ m.number + 1 = last.number := by
  unfold Countdown.addMessage
  cases h : msgs.getLast? with
  | none => simp [eq_comm]
  | some last =>
    by_cases h1 : m.author_id = last.author_id
    · simp [h1]
    · by_cases h2 : m.number + 1 ≠ last.number
      · simp [h1, h2]
      · simp only [ne_eq, not_not] at h2
        simp [h1, h2, eq_comm]

/-- C1: `tryAppend` (`Countdown.addMessage`) behaviour.  In the `Empty` state any
candidate is accepted and becomes the whole sequence (fixing `total`); in the
`Active` state a candidate by the last author is rejected as `SameAuthor`
(`MessageNotAllowedError`) regardless of its number, otherwise a candidate whose
number is not `last.number - 1` is rejected as `WrongNumber`
(`MessageIncorrectError`), otherwise it is accepted and appended as the new last
message; every rejection leaves the message sequence unchanged. -/
theorem addMessage_spec (msgs : List Message) (m : Message) :
    (msgs = [] → Countdown.addMessage msgs m = .ok [m] ∧ stepMessage msgs m = [m]) ∧
    (∀ last, msgs.getLast? = some last →
      (m.author_id = last.author_id →
        Countdown.addMessage msgs m = .error .messageNotAllowed ∧ stepMessage msgs m = msgs) ∧
      (m.author_id ≠ last.author_id → m.number ≠ last.number - 1 →
        Countdown.addMessage msgs m = .error .messageIncorrect ∧ stepMessage msgs m = msgs) ∧
      (m.author_id ≠ last.author_id → m.number = last.number - 1 →
        Countdown.addMessage msgs m = .ok (msgs ++ [m]) ∧
          (stepMessage msgs m).getLast? = some m)) := by
  constructor
  · rintro rfl
    simp [Countdown.addMessage, stepMessage]
  · intro last hlast
    refine ⟨?_, ?_, ?_⟩
    · intro hauth
      simp [Countdown.addMessage, stepMessage, hlast, hauth]
    · intro hauth hnum
      have hnum2 : m.number + 1 ≠ last.number := by omega
      simp [Countdown.addMessage, stepMessage, hlast, hauth, hnum2]
    · intro hauth hnum
      have hnum2 : ¬ m.number + 1 ≠ last.number := by omega
      simp [Countdown.addMessage, stepMessage, hlast, hauth, hnum2]

theorem addMessage_spec_witness :
    Countdown.addMessage [] ⟨1, 0, 10⟩ = .ok [⟨1, 0, 10⟩] ∧
      Countdown.addMessage [⟨1, 0, 10⟩] ⟨1, 1, 9⟩ = .error .messageNotAllowed ∧
      Countdown.addMessage [⟨1, 0, 10⟩] ⟨2, 1, 7⟩ = .error .messageIncorrect ∧
      Countdown.addMessage [⟨1, 0, 10⟩] ⟨2, 1, 9⟩ = .ok [⟨1, 0, 10⟩, ⟨2, 1, 9⟩] :=
  ⟨((addMessage_spec [] ⟨1, 0, 10⟩).1 rfl).1,
   (((addMessage_spec [⟨1, 0, 10⟩] ⟨1, 1, 9⟩).2 ⟨1, 0, 10⟩ rfl).1 rfl).1,
   (((addMessage_spec [⟨1, 0, 10⟩] ⟨2, 1, 7⟩).2 ⟨1, 0, 10⟩ rfl).2.1 (by decide) (by decide)).1,
   (((addMessage_spec [⟨1, 0, 10⟩] ⟨2, 1, 9⟩).2 ⟨1, 0, 10⟩ rfl).2.2 (by decide) (by decide)).1⟩

theorem chainOk_stepMessage (msgs : List Message) (m : Message)
    (h : List.Chain' consecOk msgs) : List.Chain' consecOk (stepMessage msgs m) := by
  unfold stepMessage
  cases hadd : Countdown.addMessage msgs m with
  | error e => exact h
  | ok l =>
    rw [addMessage_ok_iff] at hadd
    obtain ⟨rfl, hlast⟩ := hadd
    rw [List.chain'_append]
    refine ⟨h, List.chain'_singleton m, ?_⟩
    intro x hx y hy
    simp only [List.head?_cons, Option.mem_def, Option.some.injEq] at hy
    subst hy
    obtain ⟨ha, hn⟩ := hlast x hx
    exact ⟨by omega, ha⟩

theorem chainOk_applyCandidates (cs : List Message) :
    List.Chain' consecOk (applyCandidates cs) := by
  suffices h : ∀ start, List.Chain' consecOk start →
      List.Chain' consecOk (cs.foldl stepMessage start) from
    h [] (List.chain'_nil)
  induction cs with
  | nil => intro start hs; exact hs
  | cons c cs ih =>
    intro start hs
    exact ih _ (chainOk_stepMessage start c hs)

/-- C2: every message sequence reachable from the empty countdown by repeated
`addMessage` satisfies, at every pair of adjacent positions, strict
decrement-by-one of the number and alternation of the author. -/
theorem reachable_invariant (cs : List Message) (i : Nat)
    (h : i + 1 < (applyCandidates cs).length) :
    (applyCandidates cs)[i + 1].number = (applyCandidates cs)[i].number - 1 ∧
      (applyCandidates cs)[i + 1].author_id ≠ (applyCandidates cs)[i].author_id := by
  have hc := chainOk_applyCandidates cs
  rw [List.chain'_iff_get] at hc
  have := hc i (by omega)
  simpa [consecOk, List.get_eq_getElem] using this

theorem reachable_invariant_witness :
    0 + 1 < (applyCandidates [⟨1, 0, 10⟩, ⟨2, 1, 9⟩]).length ∧
      (applyCandidates [⟨1, 0, 10⟩, ⟨2, 1, 9⟩])[0 + 1].number =
          (applyCandidates [⟨1, 0, 10⟩, ⟨2, 1, 9⟩])[0].number - 1 ∧
        (applyCandidates [⟨1, 0, 10⟩, ⟨2, 1, 9⟩])[0 + 1].author_id ≠
          (applyCandidates [⟨1, 0, 10⟩, ⟨2, 1, 9⟩])[0].author_id :=
  ⟨by decide, reachable_invariant [⟨1, 0, 10⟩, ⟨2, 1, 9⟩] 0 (by decide)⟩


theorem progress_ok_percentage (first : Message) (rest : List Message) (now : ℚ)
    (r : ProgressStats) (h : Countdown.progress (first :: rest) now = .ok r) :
    (first.number : ℚ) ≠ 0 ∧ r.total = first.number ∧
      r.current = ((first :: rest).getLast (List.cons_ne_nil first rest)).number ∧
      r.percentage = (((first.number : ℚ) - (r.current : ℚ)) / (first.number : ℚ)) * 100 := by
  by_cases hT : (first.number : ℚ) = 0
  · simp [Countdown.progress, pydiv, hT, Except.bind, bind] at h
  · refine ⟨hT, ?_⟩
    simp only [Countdown.progress, pydiv, hT, if_false, ite_false, ite_true, if_neg, ne_eq,
      not_false_eq_true, Except.bind, bind, pure, Except.pure, Except.map, Functor.map] at h
    by_cases hP1 : (first :: rest).length > 1 ∧
        ((first :: rest).getLast (List.cons_ne_nil first rest)).number = 0
    · rw [if_pos hP1] at h
      by_cases hd : ((first :: rest).getLast (List.cons_ne_nil first rest)).timestamp
          - first.timestamp = 0
      · rw [if_pos hd] at h
        simp at h
      · rw [if_neg hd] at h
        simp only [Except.ok.injEq] at h
        subst h
        simp [hP1.2]
    · rw [if_neg hP1] at h
      by_cases hP2 : (first :: rest).length > 1
      · rw [if_pos hP2] at h
        by_cases hd : now - first.timestamp = 0
        · rw [if_pos hd] at h
          simp at h
        · rw [if_neg hd] at h
          simp only [] at h
          by_cases hr : ((first.number : ℚ) -
              (((first :: rest).getLast (List.cons_ne_nil first rest)).number : ℚ)) /
                (now - first.timestamp) = 0
          · rw [if_pos hr] at h
            simp at h
          · rw [if_neg hr] at h
            simp only [Except.ok.injEq] at h
            subst h
            simp
      · rw [if_neg hP2] at h
        simp only [Except.ok.injEq] at h
        subst h
        simp

/-- C10: `addMessage` on an empty countdown accepts a message carrying number 0
(no starting value is enforced), after which `total = 0` and `progress()` hits
the unguarded division `(total - current) / total`, raising `ZeroDivisionError`
rather than `EmptyCountdownError` or returning a result; so the division-by-zero
branch is reachable even under the documented non-empty precondition. -/
theorem progress_zero_total_division (m : Message) (h : m.number = 0) :
    Countdown.addMessage [] m = .ok [m] ∧
      ∀ now : ℚ, Countdown.progress [m] now = .error .zeroDivision ∧
        CountdownError.zeroDivision ≠ CountdownError.emptyCountdown := by
  refine ⟨by simp [Countdown.addMessage], fun now => ⟨?_, by decide⟩⟩
  simp [Countdown.progress, pydiv, h, Except.bind, bind]

theorem progress_zero_total_division_witness :
    Countdown.addMessage [] ⟨7, 0, 0⟩ = .ok [⟨7, 0, 0⟩] ∧
      Countdown.progress [⟨7, 0, 0⟩] 4 = .error .zeroDivision ∧
        CountdownError.zeroDivision ≠ CountdownError.emptyCountdown :=
  ⟨(progress_zero_total_division ⟨7, 0, 0⟩ rfl).1,
   (progress_zero_total_division ⟨7, 0, 0⟩ rfl).2 4⟩

/-- C4 counterexample: for the ongoing (not complete) two-message countdown
`[(author 1, t=0, n=2), (author 2, t=1, n=1)]` read at `now = 3`, the claim's
`elapsedDays` ("days between the first and last message timestamp if the
countdown is not complete") is `1`, predicting `rate = (2-1)/1 = 1`; the code
divides by the time from the first message to `now` instead and returns
`rate = 1/3`. -/
theorem progress_elapsed_counterexample :
    ∃ r, Countdown.progress [⟨1, 0, 2⟩, ⟨2, 1, 1⟩] 3 = .ok r ∧
      r.rate = 1/3 ∧ r.rate ≠ ((2 : ℚ) - 1) / (1 - 0) := by
  refine ⟨{ total := 2, current := 1, percentage := 50,
            progressList := [(0, 2), (1, 1)], start := 0, rate := 1/3, eta := 6 },
    ?_, rfl, by norm_num⟩
  simp [Countdown.progress, pydiv, Except.bind, bind, Except.map, Functor.map, pure,
    Except.pure]
  norm_num

/-- C4 (amended): for every non-empty message sequence whose total is non-zero,
`progress()` returns `total = messages[0].number`, `current = messages[-1].number`
and `percentage = (total-current)/total*100`; with at least 2 messages,
`elapsedDays` is the days between the first message and *now* if the countdown
is NOT complete (and the days between the first and last message if it IS
complete — the converse of the claim's wording), `rate = (total-current)/elapsedDays`,
and `eta = now + current/rate` days if ongoing, else the last message's
timestamp; with fewer than 2 messages, `rate = 0` and `eta = now`.  The
rate/eta clauses additionally need the divisors to be non-zero (non-equal
timestamps; `current ≠ total` for the ongoing eta), otherwise the call raises
`ZeroDivisionError`. -/
theorem progress_spec (first : Message) (rest : List Message) (now : ℚ)
    (hT : first.number ≠ 0) :
    (rest = [] →
      Countdown.progress (first :: rest) now =
        .ok { total := first.number, current := first.number, percentage := 0,
              progressList := [(first.timestamp, first.number)],
              start := first.timestamp, rate := 0, eta := now }) ∧
    (∀ lastM, rest ≠ [] → ((first :: rest).getLast (List.cons_ne_nil first rest)) = lastM →
      (lastM.number = 0 → lastM.timestamp ≠ first.timestamp →
        Countdown.progress (first :: rest) now =
          .ok { total := first.number, current := lastM.number,
                percentage := (((first.number : ℚ) - (lastM.number : ℚ)) / (first.number : ℚ)) * 100,
                progressList := (first :: rest).map (fun x => (x.timestamp, x.number)),
                start := first.timestamp,
                rate := ((first.number : ℚ) - (lastM.number : ℚ)) / (lastM.timestamp - first.timestamp),
                eta := lastM.timestamp }) ∧
      (lastM.number ≠ 0 → now ≠ first.timestamp → lastM.number ≠ first.number →
        Countdown.progress (first :: rest) now =
          .ok { total := first.number, current := lastM.number,
                percentage := (((first.number : ℚ) - (lastM.number : ℚ)) / (first.number : ℚ)) * 100,
                progressList := (first :: rest).map (fun x => (x.timestamp, x.number)),
                start := first.timestamp,
                rate := ((first.number : ℚ) - (lastM.number : ℚ)) / (now - first.timestamp),
                eta := now + (lastM.number : ℚ) /
                  (((first.number : ℚ) - (lastM.number : ℚ)) / (now - first.timestamp)) })) := by
  have hTQ : (first.number : ℚ) ≠ 0 := by exact_mod_cast hT
  constructor
  · rintro rfl
    simp [Countdown.progress, pydiv, hTQ, Except.bind, bind, pure, Except.pure]
  · intro lastM hrest hL
    rw [List.getLast_cons hrest] at hL
    have hlen : 0 < rest.length := by
      cases rest with
      | nil => exact absurd rfl hrest
      | cons a l => simp
    constructor
    · intro hnum hts
      have hts2 : lastM.timestamp - first.timestamp ≠ 0 := sub_ne_zero.mpr hts
      simp [Countdown.progress, pydiv, hTQ, hlen, hnum, hts2, hrest, hL, List.getLast_cons,
        Except.bind, bind, pure, Except.pure]
    · intro hnum hts hcur
      have hts2 : now - first.timestamp ≠ 0 := sub_ne_zero.mpr hts
      have hnum2 : (first.number : ℚ) - (lastM.number : ℚ) ≠ 0 := by
        rw [sub_ne_zero]
        exact_mod_cast hcur.symm
      have hrate : ((first.number : ℚ) - (lastM.number : ℚ)) / (now - first.timestamp) ≠ 0 :=
        div_ne_zero hnum2 hts2
      simp [Countdown.progress, pydiv, hTQ, hlen, hnum, hts2, hnum2, hrate, hrest, hL,
        List.getLast_cons, Except.bind, bind, pure, Except.pure]

theorem progress_spec_witness :
    Countdown.progress [⟨1, 0, 2⟩, ⟨2, 1, 1⟩] 3 =
      .ok { total := 2, current := 1, percentage := 50,
            progressList := [(0, 2), (1, 1)], start := 0, rate := 1/3, eta := 6 } := by
  have h := ((progress_spec ⟨1, 0, 2⟩ [⟨2, 1, 1⟩] 3 (by decide)).2 ⟨2, 1, 1⟩
      (by decide) rfl).2 (by decide) (by norm_num) (by decide)
  rw [h]
  norm_num

/-- C9 (amended): whenever the countdown's total (the first accepted number) is
positive, appending a further accepted message never decreases
`progress().percentage`; and whenever `progress()` succeeds with `current = 0`,
the percentage is exactly 100. -/
theorem percentage_spec :
    (∀ (msgs l : List Message) (m : Message) (now now2 : ℚ) (r1 r2 : ProgressStats)
        (h0 : msgs ≠ []), 0 < (msgs.head h0).number →
        Countdown.addMessage msgs m = .ok l →
        Countdown.progress msgs now = .ok r1 →
        Countdown.progress l now2 = .ok r2 →
        r1.percentage ≤ r2.percentage) ∧
    (∀ (msgs : List Message) (now : ℚ) (r : ProgressStats),
        Countdown.progress msgs now = .ok r → r.current = 0 → r.percentage = 100) := by
  constructor
  · intro msgs l m now now2 r1 r2 h0 hpos hadd h1 h2
    match msgs, h0 with
    | first :: rest, h0 =>
      rw [addMessage_ok_iff] at hadd
      obtain ⟨rfl, hlast⟩ := hadd
      obtain ⟨hT1, ht1, hcur1, hpct1⟩ := progress_ok_percentage first rest now r1 h1
      have hl : (first :: rest) ++ [m] = first :: (rest ++ [m]) := rfl
      rw [hl] at h2
      obtain ⟨hT2, ht2, hcur2, hpct2⟩ := progress_ok_percentage first (rest ++ [m]) now2 r2 h2
      have h5 : (first :: (rest ++ [m])).getLast? = some m := by
        rw [show first :: (rest ++ [m]) = (first :: rest) ++ [m] by simp]
        exact List.getLast?_concat _
      have hgl2 : ((first :: (rest ++ [m])).getLast
          (List.cons_ne_nil first (rest ++ [m]))) = m := by
        have h6 := List.getLast?_eq_getLast (first :: (rest ++ [m]))
          (List.cons_ne_nil first (rest ++ [m]))
        rw [h6] at h5
        exact Option.some_inj.mp h5
      have hlastM := List.getLast?_eq_getLast (first :: rest) (List.cons_ne_nil first rest)
      obtain ⟨hauth, hnum⟩ := hlast _ (by rw [hlastM]; rfl)
      have hposQ : (0 : ℚ) < (first.number : ℚ) := by
        exact_mod_cast hpos
      rw [hpct1, hpct2, hcur1, hcur2, hgl2]
      have hmq : (m.number : ℚ) =
          (((first :: rest).getLast (List.cons_ne_nil first rest)).number : ℚ) - 1 := by
        push_cast [← hnum]
        ring
      rw [hmq]
      rw [div_mul_eq_mul_div, div_mul_eq_mul_div, div_le_div_iff₀ hposQ hposQ]
      nlinarith [hposQ]
  · intro msgs now r h hc
    match msgs with
    | first :: rest =>
      obtain ⟨hT, ht, hcur, hpct⟩ := progress_ok_percentage first rest now r h
      rw [hpct, hc]
      push_cast
      rw [sub_zero, div_self hT]
      norm_num


theorem percentage_spec_witness :
    ProgressStats.percentage ⟨2, 2, 0, [(0, 2)], 0, 0, 3⟩ ≤
      ProgressStats.percentage ⟨2, 1, 50, [(0, 2), (1, 1)], 0, 1/3, 6⟩ ∧
    ProgressStats.percentage ⟨1, 0, 100, [(0, 1), (1, 0)], 0, 1, 1⟩ = 100 := by
  constructor
  · exact percentage_spec.1 [⟨1, 0, 2⟩] [⟨1, 0, 2⟩, ⟨2, 1, 1⟩] ⟨2, 1, 1⟩ 3 3 _ _
      (by simp) (by decide) (by decide)
      (by simp [Countdown.progress, pydiv, Except.bind, bind, pure, Except.pure])
      (by simp [Countdown.progress, pydiv, Except.bind, bind, Except.map, Functor.map, pure,
            Except.pure]
          norm_num)
  · exact percentage_spec.2 [⟨1, 0, 1⟩, ⟨2, 1, 0⟩] 5 _
      (by simp [Countdown.progress, pydiv, Except.bind, bind, Except.map, Functor.map, pure,
            Except.pure])
      rfl

/-- C9 counterexample: the first accepted number is not forced to be positive;
starting from the accepted message `(author 1, t=0, n=-5)` and validly appending
`(author 2, t=1, n=-6)`, the percentage drops from 0 to -20, so
`progress().percentage` is not monotonically non-decreasing over all sequences
of valid appends. -/
theorem percentage_not_monotone_counterexample :
    Countdown.addMessage [⟨1, 0, -5⟩] ⟨2, 1, -6⟩ = .ok [⟨1, 0, -5⟩, ⟨2, 1, -6⟩] ∧
      ∃ r1 r2, Countdown.progress [⟨1, 0, -5⟩] 2 = .ok r1 ∧
        Countdown.progress [⟨1, 0, -5⟩, ⟨2, 1, -6⟩] 2 = .ok r2 ∧
        r2.percentage < r1.percentage := by
  refine ⟨by decide,
    ⟨{ total := -5, current := -5, percentage := 0, progressList := [(0, -5)],
       start := 0, rate := 0, eta := 2 },
     { total := -5, current := -6, percentage := -20, progressList := [(0, -5), (1, -6)],
       start := 0, rate := 1/2, eta := -10 }, ?_, ?_, by norm_num⟩⟩
  · simp [Countdown.progress, pydiv, Except.bind, bind, pure, Except.pure]
  · simp [Countdown.progress, pydiv, Except.bind, bind, Except.map, Functor.map, pure,
      Except.pure]
    norm_num

/-- C3: the classification chain of `Countdown.leaderboard` equals the spec's
precedence-ordered rule table evaluated first-match-first (so every message gets
exactly one category); in particular with `total = 1000` the 1000-valued first
message is classified "First Number" (precedence over the "1000s" rule), and
the 0-valued message is classified by the modulo rules — here "1000s", since
`0 mod 1000 = 0` — and not "First Number". -/
theorem classify_spec_order :
    (∀ (total : Int) (primes : List Int) (n : Int),
        classify total primes n = classifySpec total primes n) ∧
    (∀ primes : List Int, classify 1000 primes 1000 = Category.firstNumber) ∧
    (∀ primes : List Int, classify 1000 primes 0 = Category.c1000 ∧
        Category.c1000 ≠ Category.firstNumber) := by
  refine ⟨?_, ?_, ?_⟩
  · intro total primes n
    simp [classify, classifySpec, specRules, applyRules]
  · intro primes
    simp [classify]
  · intro primes
    refine ⟨?_, by decide⟩
    norm_num [classify]

theorem parseNumber_eq_none_iff (s : List Char) :
    parseNumber s = none ↔
      (s.takeWhile isGroupChar).filter (fun ch => ch != ',') = [] := by
  unfold parseNumber
  by_cases h1 : s.takeWhile isGroupChar = []
  · simp [h1]
  · by_cases h2 : (s.takeWhile isGroupChar).filter (fun ch => ch != ',') = []
    · simp [h1, h2]
    · simp [h1, h2]

theorem parseNumber_some_val (s : List Char) (v : Int) (h : parseNumber s = some v) :
    v = (digitsVal ((s.takeWhile isGroupChar).filter (fun ch => ch != ',')) : Int) := by
  unfold parseNumber at h
  by_cases h1 : s.takeWhile isGroupChar = []
  · simp [h1] at h
  · simp only [h1, if_false, ite_false] at h
    by_cases h2 : (s.takeWhile isGroupChar).filter (fun ch => ch != ',') = []
    · simp [h2] at h
    · simp only [h2, if_false, ite_false, Option.some.injEq] at h
      exact h.symm

/-- C8 (amended): the numeric parser returns the integer value of the digits of
the leading run of digit/comma characters; it returns "no match" exactly when
that leading run contains no digit — i.e. when the text does not begin with a
digit *or a comma*, or the leading run is all commas (then `int("")` raises
`ValueError`, likewise swallowed) — the run being maximal (the text continues
with a non-digit, non-comma character or ends); and a no-match input causes no
state change and no error (the message is silently dropped). -/
theorem parseNumber_spec (s : List Char) :
    (∀ v : Int, parseNumber s = some v →
      v = (digitsVal ((s.takeWhile isGroupChar).filter (fun ch => ch != ',')) : Int)) ∧
    (parseNumber s = none ↔ ∀ c ∈ s.takeWhile isGroupChar, c.isDigit = false) ∧
    (∃ rest, s = s.takeWhile isGroupChar ++ rest ∧
      ∀ c, rest.head? = some c → isGroupChar c = false) ∧
    (parseNumber s = none →
      ∀ (msgs : List Message) (a : Int) (t : ℚ), addMessageBot msgs a t s = (msgs, false)) := by
  refine ⟨fun v h => parseNumber_some_val s v h, ?_, ?_, ?_⟩
  · rw [parseNumber_eq_none_iff, List.filter_eq_nil_iff]
    constructor
    · intro h2 c hc
      have hcc := h2 c hc
      simp only [bne_iff_ne, ne_eq, not_not] at hcc
      rw [hcc]
      decide
    · intro hall c hc
      have hg : isGroupChar c = true := List.mem_takeWhile_imp hc
      have hd := hall c hc
      simp only [isGroupChar, Bool.or_eq_true, beq_iff_eq] at hg
      rcases hg with hg1 | hg2
      · rw [hg1] at hd
        cases hd
      · simp [hg2]
  · exact ⟨s.dropWhile isGroupChar, (List.takeWhile_append_dropWhile isGroupChar s).symm,
      fun c hc => by
        have := List.head?_dropWhile_not isGroupChar s
        rw [hc] at this
        exact this⟩
  · intro h msgs a t
    unfold addMessageBot
    rw [h]


/-- C7: code bug.  Every statistics function raises `EmptyCountdownError` on an
empty sequence, and the spec (like the source's own comment "Make sure countdown
has at least two messages") requires `eta(period)` to reject sequences with
fewer than two messages; but the guard only checks `len(self.messages) == 0`,
so with exactly one message (number 5 at t=0, read two days later with a
one-day period) `eta` proceeds, computes a zero rate, and raises
`ZeroDivisionError` instead of `EmptyCountdownError`. -/
theorem eta_single_message_divergence :
    Countdown.eta [⟨1, 0, 5⟩] 0 2 1 = .error .zeroDivision ∧
      Countdown.eta [⟨1, 0, 5⟩] 0 2 1 ≠ .error .emptyCountdown ∧
      Countdown.eta [] 0 2 1 = .error .emptyCountdown := by
  have h1 : Countdown.eta [⟨1, 0, 5⟩] 0 2 1 = .error .zeroDivision := by
    simp [Countdown.eta, etaLoop, advanceLast, pydiv, Except.bind, bind, pure, Except.pure]
  refine ⟨h1, by rw [h1]; decide, by rfl⟩


theorem classify_spec_order_witness :
    classify 1000 [] 1000 = classifySpec 1000 [] 1000 ∧
      classify 1000 [] 1000 = Category.firstNumber ∧
      classify 1000 [] 0 = Category.c1000 :=
  ⟨classify_spec_order.1 1000 [] 1000, classify_spec_order.2.1 [],
   (classify_spec_order.2.2 []).1⟩

/-- C8 counterexample: the input ",1" does not begin with a digit, yet the
parser matches (the regex class `[0-9,]` includes the comma) and returns 1
instead of "no match". -/
theorem parseNumber_counterexample :
    parseNumber [',', '1'] = some 1 ∧ Char.isDigit ',' = false := by
  decide

theorem parseNumber_spec_witness :
    (42 : Int) = (digitsVal ((['4', ',', '2'].takeWhile isGroupChar).filter
        (fun ch => ch != ',')) : Int) ∧
      addMessageBot [] 1 0 ['x'] = ([], false) :=
  ⟨(parseNumber_spec ['4', ',', '2']).1 42 (by decide),
   (parseNumber_spec ['x']).2.2.2 (by decide) [] 1 0⟩


theorem scanDivisor_eq_false (c m : Nat) : ∀ L : List Nat, List.Pairwise (· < ·) L →
    m ∈ L → m ∣ c → (∀ p ∈ L, 1 < p) → (∀ p ∈ L, p ∣ c → m ≤ p) → m * m ≤ c →
    scanDivisor c L = some false := by
  intro L
  induction L with
  | nil => intro _ hm; cases hm
  | cons p rest ih =>
    intro hsort hm hdvd hgt hmin hsq
    by_cases hpd : c % p = 0
    · simp [scanDivisor, hpd]
    · have hpdvd : ¬ p ∣ c := fun hd => hpd (Nat.mod_eq_zero_of_dvd hd)
      have hpm : p ≠ m := fun h => hpdvd (h ▸ hdvd)
      have hm2 : m ∈ rest := by
        rcases List.mem_cons.mp hm with hEq | hm2
        · exact absurd hEq.symm hpm
        · exact hm2
      have hplt : p < m := (List.pairwise_cons.mp hsort).1 m hm2
      have hpsq : ¬ (p * p > c) := by
        have h1 : p * p < m * m := Nat.mul_lt_mul_of_lt_of_lt hplt hplt
        omega
      simp only [scanDivisor, hpd, if_false, ite_false, hpsq]
      exact ih (List.pairwise_cons.mp hsort).2 hm2 hdvd
        (fun q hq => hgt q (List.mem_cons_of_mem p hq))
        (fun q hq hqd => hmin q (List.mem_cons_of_mem p hq) hqd) hsq

theorem scanDivisor_eq_true (c : Nat) : ∀ L : List Nat,
    (∀ p ∈ L, ¬ p ∣ c) → (∃ q ∈ L, c < q * q) →
    scanDivisor c L = some true := by
  intro L
  induction L with
  | nil =>
    rintro _ ⟨q, hq, _⟩
    cases hq
  | cons p rest ih =>
    intro hnd hex
    have hpd : ¬ c % p = 0 := fun h =>
      hnd p (List.mem_cons_self p rest) (Nat.dvd_of_mod_eq_zero h)
    by_cases hsq : p * p > c
    · simp [scanDivisor, hpd, hsq]
    · obtain ⟨q, hq, hqq⟩ := hex
      have hq2 : q ∈ rest := by
        rcases List.mem_cons.mp hq with hEq | hq2
        · subst hEq
          omega
        · exact hq2
      simp only [scanDivisor, hpd, if_false, ite_false, hsq]
      exact ih (fun r hr => hnd r (List.mem_cons_of_mem p hr)) ⟨q, hq2, hqq⟩

theorem exists_sqrt_prime (c : Nat) (h5 : 5 ≤ c) :
    ∃ q, Nat.Prime q ∧ 2 < q ∧ q < c ∧ c < q * q := by
  have hs2 : 2 ≤ Nat.sqrt c := by
    rw [Nat.le_sqrt]
    omega
  obtain ⟨q, hq, hlt, hle⟩ := Nat.exists_prime_lt_and_le_two_mul (Nat.sqrt c) (by omega)
  have hss : Nat.sqrt c * Nat.sqrt c ≤ c := by
    have := Nat.sqrt_le' c
    nlinarith [this]
  have hsucc := Nat.lt_succ_sqrt c
  refine ⟨q, hq, by omega, ?_, ?_⟩
  · have h2s : 2 * Nat.sqrt c < c := by
      rcases Nat.lt_or_ge (Nat.sqrt c) 3 with h3 | h3
      · omega
      · nlinarith [hss]
    omega
  · have hq1 : Nat.sqrt c + 1 ≤ q := hlt
    nlinarith [hsucc]

theorem sieveLoop_correct (n : Nat) : ∀ (fuel curTest : Nat) (primes : List Nat),
    curTest % 2 = 1 → 5 ≤ curTest → List.Pairwise (· < ·) primes →
    (∀ p, p ∈ primes ↔ Nat.Prime p ∧ p < curTest) →
    n ≤ curTest + 2 * fuel →
    ∃ l, sieveLoop n fuel curTest primes = some l ∧
      ∀ p, p ∈ l ↔ Nat.Prime p ∧ (p < curTest ∨ p < n) := by
  intro fuel
  induction fuel with
  | zero =>
    intro curTest primes hodd h5 hsort hmem hle
    have hnlt : ¬ curTest < n := by omega
    refine ⟨primes, by simp [sieveLoop, hnlt], fun p => ?_⟩
    rw [hmem p]
    constructor
    · rintro ⟨hp, hplt⟩
      exact ⟨hp, Or.inl hplt⟩
    · rintro ⟨hp, hplt | hplt⟩
      · exact ⟨hp, hplt⟩
      · exact ⟨hp, by omega⟩
  | succ fuel ih =>
    intro curTest primes hodd h5 hsort hmem hle
    by_cases hlt : curTest < n
    case neg =>
      refine ⟨primes, by simp [sieveLoop, hlt], fun p => ?_⟩
      rw [hmem p]
      constructor
      · rintro ⟨hp, hplt⟩
        exact ⟨hp, Or.inl hplt⟩
      · rintro ⟨hp, hplt | hplt⟩
        · exact ⟨hp, hplt⟩
        · exact ⟨hp, by omega⟩
    case pos =>
      have hsucc_not_prime : ¬ Nat.Prime (curTest + 1) := by
        intro hp
        have h2d : (2 : Nat) ∣ curTest + 1 := by omega
        rcases hp.eq_one_or_self_of_dvd 2 h2d with h | h <;> omega
      have h2m : (2 : Nat) ∈ primes := (hmem 2).mpr ⟨Nat.prime_two, by omega⟩
      rcases primes with _ | ⟨p0, rest⟩
      · cases h2m
      · have hp0 : p0 = 2 := by
          rcases List.mem_cons.mp h2m with hEq | h
          · exact hEq.symm
          · have hlt2 := (List.pairwise_cons.mp hsort).1 2 h
            have hp0p := (hmem p0).mp (List.mem_cons_self p0 rest)
            have := hp0p.1.two_le
            omega
        subst hp0
        have hrest_mem : ∀ p, p ∈ rest ↔ Nat.Prime p ∧ 2 < p ∧ p < curTest := by
          intro p
          constructor
          · intro hp
            have h1 := (hmem p).mp (List.mem_cons_of_mem 2 hp)
            exact ⟨h1.1, (List.pairwise_cons.mp hsort).1 p hp, h1.2⟩
          · rintro ⟨hp, h2p, hpc⟩
            have hx := (hmem p).mpr ⟨hp, hpc⟩
            rcases List.mem_cons.mp hx with h1 | h1
            · omega
            · exact h1
        have hrest_sort := (List.pairwise_cons.mp hsort).2
        by_cases hcp : Nat.Prime curTest
        · -- curTest prime: the scan exits at a prime above the square root
          have hscan : scanDivisor curTest rest = some true := by
            apply scanDivisor_eq_true
            · intro p hp hpd
              obtain ⟨hp1, hp2, hp3⟩ := (hrest_mem p).mp hp
              rcases hcp.eq_one_or_self_of_dvd p hpd with h | h <;> omega
            · obtain ⟨q, hq, h2q, hqc, hcq⟩ := exists_sqrt_prime curTest h5
              exact ⟨q, (hrest_mem q).mpr ⟨hq, h2q, hqc⟩, hcq⟩
          have hstep : sieveLoop n (fuel + 1) curTest (2 :: rest) =
              sieveLoop n fuel (curTest + 2) ((2 :: rest) ++ [curTest]) := by
            simp [sieveLoop, hlt, hscan]
          rw [hstep]
          have hsort2 : List.Pairwise (· < ·) ((2 :: rest) ++ [curTest]) := by
            rw [List.pairwise_append]
            refine ⟨hsort, List.pairwise_singleton _ _, ?_⟩
            intro a ha b hb
            simp only [List.mem_singleton] at hb
            subst hb
            exact ((hmem a).mp ha).2
          have hmem2 : ∀ p, p ∈ (2 :: rest) ++ [curTest] ↔ Nat.Prime p ∧ p < curTest + 2 := by
            intro p
            rw [List.mem_append]
            constructor
            · rintro (hp | hp)
              · have h1 := (hmem p).mp hp
                exact ⟨h1.1, by omega⟩
              · simp only [List.mem_singleton] at hp
                subst hp
                exact ⟨hcp, by omega⟩
            · rintro ⟨hp, hplt⟩
              by_cases hpc : p < curTest
              · exact Or.inl ((hmem p).mpr ⟨hp, hpc⟩)
              · have hx : p = curTest ∨ p = curTest + 1 := by omega
                rcases hx with h | h
                · subst h
                  simp
                · subst h
                  exact absurd hp hsucc_not_prime
          obtain ⟨l, hsl, hml⟩ := ih (curTest + 2) ((2 :: rest) ++ [curTest])
            (by omega) (by omega) hsort2 hmem2 (by omega)
          refine ⟨l, hsl, fun p => ?_⟩
          rw [hml p]
          constructor
          · rintro ⟨hp, h | h⟩
            · refine ⟨hp, ?_⟩
              by_cases hpc : p < curTest
              · exact Or.inl hpc
              · have hx : p = curTest ∨ p = curTest + 1 := by omega
                rcases hx with h1 | h1
                · subst h1
                  exact Or.inr (by omega)
                · subst h1
                  exact absurd hp hsucc_not_prime
            · exact ⟨hp, Or.inr h⟩
          · rintro ⟨hp, h | h⟩
            · exact ⟨hp, Or.inl (by omega)⟩
            · exact ⟨hp, Or.inr h⟩
        · -- curTest composite: the scan finds its least prime factor
          have hne1 : curTest ≠ 1 := by omega
          have hmf := Nat.minFac_prime hne1
          have hmfd := Nat.minFac_dvd curTest
          have hmfsq : curTest.minFac ^ 2 ≤ curTest := Nat.minFac_sq_le_self (by omega) hcp
          have hmf2 : curTest.minFac ≠ 2 := by
            intro h
            have hdd : (2 : Nat) ∣ curTest := h ▸ hmfd
            omega
          have hmfgt2 : 2 < curTest.minFac := by
            have := hmf.two_le
            omega
          have hmflt : curTest.minFac < curTest := by
            have h2le := hmf.two_le
            nlinarith [hmfsq]
          have hmfmem : curTest.minFac ∈ rest := (hrest_mem _).mpr ⟨hmf, hmfgt2, hmflt⟩
          have hscan : scanDivisor curTest rest = some false := by
            apply scanDivisor_eq_false curTest curTest.minFac rest hrest_sort hmfmem hmfd
            · intro p hp
              have := ((hrest_mem p).mp hp).1.two_le
              omega
            · intro p hp hpd
              exact Nat.minFac_le_of_dvd ((hrest_mem p).mp hp).1.two_le hpd
            · nlinarith [hmfsq]
          have hstep : sieveLoop n (fuel + 1) curTest (2 :: rest) =
              sieveLoop n fuel (curTest + 2) (2 :: rest) := by
            simp [sieveLoop, hlt, hscan]
          rw [hstep]
          have hmem2 : ∀ p, p ∈ 2 :: rest ↔ Nat.Prime p ∧ p < curTest + 2 := by
            intro p
            rw [hmem p]
            constructor
            · rintro ⟨hp, h⟩
              exact ⟨hp, by omega⟩
            · rintro ⟨hp, h⟩
              refine ⟨hp, ?_⟩
              by_cases hplt2 : p < curTest
              · exact hplt2
              · exfalso
                have hx : p = curTest ∨ p = curTest + 1 := by omega
                rcases hx with h1 | h1
                · subst h1
                  exact hcp hp
                · subst h1
                  exact hsucc_not_prime hp
          obtain ⟨l, hsl, hml⟩ := ih (curTest + 2) (2 :: rest)
            (by omega) (by omega) hsort hmem2 (by omega)
          refine ⟨l, hsl, fun p => ?_⟩
          rw [hml p]
          constructor
          · rintro ⟨hp, h | h⟩
            · refine ⟨hp, ?_⟩
              by_cases hpc : p < curTest
              · exact Or.inl hpc
              · have hx : p = curTest ∨ p = curTest + 1 := by omega
                rcases hx with h1 | h1
                · subst h1
                  exact absurd hp hcp
                · subst h1
                  exact absurd hp hsucc_not_prime
            · exact ⟨hp, Or.inr h⟩
          · rintro ⟨hp, h | h⟩
            · exact ⟨hp, Or.inl (by omega)⟩
            · exact ⟨hp, Or.inr h⟩

theorem getPrimes_correct (n : Nat) :
    ∃ l, getPrimes n = some l ∧ ∀ p, p ∈ l ↔ Nat.Prime p ∧ (p < 5 ∨ p < n) := by
  have hmem : ∀ p, p ∈ ([2, 3] : List Nat) ↔ Nat.Prime p ∧ p < 5 := by
    intro p
    constructor
    · intro h
      rcases List.mem_cons.mp h with h1 | h1
      · subst h1
        exact ⟨Nat.prime_two, by omega⟩
      · rcases List.mem_cons.mp h1 with h2 | h2
        · subst h2
          exact ⟨Nat.prime_three, by omega⟩
        · cases h2
    · rintro ⟨hp, hlt⟩
      have h2 := hp.two_le
      interval_cases p
      · simp
      · simp
      · exact absurd hp (by decide)
  exact sieveLoop_correct n n 5 [2, 3] rfl (by omega) (by decide) hmem (by omega)


/-- C6 counterexample: the loop `while curTest < n` never runs for `n ≤ 5`, so
the seeded list `[2, 3]` is returned as-is; with bound `n = 2` (a reachable
total: the first message may carry the number 2) the result contains 3, which
is not a prime strictly less than 2, so the computed list is not "exactly the
set of primes < n" for every bound. -/
theorem getPrimes_small_counterexample :
    getPrimes 2 = some [2, 3] ∧ (3 : Nat) ∈ [2, 3] ∧ ¬ (Nat.Prime 3 ∧ 3 < 2) := by
  refine ⟨by decide, by decide, ?_⟩
  rintro ⟨-, h⟩
  omega

/-- C6 (amended): for every bound `n ≥ 4`, the prime list computed by the
incremental trial-division loop of `Countdown.leaderboard` (2 and 3 seeded, odd
candidates tested against the discovered primes `p` while `p ≤ sqrt(candidate)`)
terminates without an index error and is exactly the set of primes strictly
less than `n`.  (For `n < 4` the loop body never runs and the seeded `[2, 3]`
is returned unchanged.) -/
theorem getPrimes_spec (n : Nat) (h : 4 ≤ n) :
    ∃ l, getPrimes n = some l ∧ ∀ p, p ∈ l ↔ Nat.Prime p ∧ p < n := by
  obtain ⟨l, hl, hmem⟩ := getPrimes_correct n
  refine ⟨l, hl, fun p => ?_⟩
  rw [hmem p]
  constructor
  · rintro ⟨hp, h5 | hn⟩
    · refine ⟨hp, ?_⟩
      have h2 := hp.two_le
      rcases Nat.lt_or_ge p 4 with h4 | h4
      · omega
      · have h44 : p = 4 := by omega
        subst h44
        exact absurd hp (by decide)
    · exact ⟨hp, hn⟩
  · rintro ⟨hp, hn⟩
    exact ⟨hp, Or.inr hn⟩

theorem getPrimes_spec_witness :
    (4 : Nat) ≤ 10 ∧ ∃ l, getPrimes 10 = some l ∧
      ∀ p, p ∈ l ↔ Nat.Prime p ∧ p < 10 :=
  ⟨by decide, getPrimes_spec 10 (by decide)⟩


theorem bump_sum (bd : Category → Nat) (c : Category) :
    (Category.all.map (bumpCategory bd c)).sum = (Category.all.map bd).sum + 1 := by
  cases c <;> simp [Category.all, bumpCategory] <;> omega

theorem updateTally_fst (a : Int) (c : Category) :
    ∀ t : List (Int × (Category → Nat)),
      (updateTally t a c).map Prod.fst =
        if a ∈ t.map Prod.fst then t.map Prod.fst else t.map Prod.fst ++ [a] := by
  intro t
  induction t with
  | nil => simp [updateTally]
  | cons e rest ih =>
    obtain ⟨b, bd⟩ := e
    by_cases hb : b = a
    · subst hb
      simp [updateTally]
    · simp only [updateTally, hb, if_false, ite_false, List.map_cons, ih]
      by_cases hmem : a ∈ rest.map Prod.fst
      · simp [hmem, List.mem_cons, Ne.symm hb]
      · simp [hmem, List.mem_cons, Ne.symm hb]

theorem updateTally_mem_fst (a : Int) (c : Category) (x : Int)
    (t : List (Int × (Category → Nat))) :
    x ∈ (updateTally t a c).map Prod.fst ↔ x ∈ t.map Prod.fst ∨ x = a := by
  rw [updateTally_fst]
  by_cases hmem : a ∈ t.map Prod.fst
  · simp only [hmem, if_true, ite_true]
    constructor
    · exact Or.inl
    · rintro (hx | hx)
      · exact hx
      · subst hx
        exact hmem
  · simp [hmem, List.mem_append]

theorem updateTally_nodup (a : Int) (c : Category) (t : List (Int × (Category → Nat)))
    (h : (t.map Prod.fst).Nodup) : ((updateTally t a c).map Prod.fst).Nodup := by
  rw [updateTally_fst]
  by_cases hmem : a ∈ t.map Prod.fst
  · simpa [hmem] using h
  · simp [hmem, List.nodup_append, h]

theorem updateTally_contrib_sum (a : Int) (c : Category) :
    ∀ t : List (Int × (Category → Nat)),
      ((updateTally t a c).map (fun e => (Category.all.map e.2).sum)).sum =
        (t.map (fun e => (Category.all.map e.2).sum)).sum + 1 := by
  intro t
  induction t with
  | nil =>
    simp only [updateTally, List.map_cons, List.map_nil, List.sum_cons, List.sum_nil]
    rw [bump_sum]
    simp [Category.all, emptyBreakdown]
  | cons e rest ih =>
    obtain ⟨b, bd⟩ := e
    by_cases hb : b = a
    · subst hb
      simp [updateTally, bump_sum bd c]
      omega
    · simp [updateTally, hb, ih]
      omega

theorem foldl_tally_mem (f : Message → Category) :
    ∀ (msgs : List Message) (t : List (Int × (Category → Nat))) (x : Int),
      x ∈ ((msgs.foldl (fun t2 mm => updateTally t2 mm.author_id (f mm)) t).map Prod.fst) ↔
        x ∈ t.map Prod.fst ∨ x ∈ msgs.map Message.author_id := by
  intro msgs
  induction msgs with
  | nil => simp
  | cons mm rest ih =>
    intro t x
    simp only [List.foldl_cons, List.map_cons, List.mem_cons]
    rw [ih, updateTally_mem_fst]
    tauto

theorem foldl_tally_nodup (f : Message → Category) :
    ∀ (msgs : List Message) (t : List (Int × (Category → Nat))),
      (t.map Prod.fst).Nodup →
      ((msgs.foldl (fun t2 mm => updateTally t2 mm.author_id (f mm)) t).map Prod.fst).Nodup := by
  intro msgs
  induction msgs with
  | nil => exact fun t h => h
  | cons mm rest ih =>
    intro t h
    exact ih _ (updateTally_nodup mm.author_id (f mm) t h)

theorem foldl_tally_contrib (f : Message → Category) :
    ∀ (msgs : List Message) (t : List (Int × (Category → Nat))),
      ((msgs.foldl (fun t2 mm => updateTally t2 mm.author_id (f mm)) t).map
          (fun e => (Category.all.map e.2).sum)).sum =
        (t.map (fun e => (Category.all.map e.2).sum)).sum + msgs.length := by
  intro msgs
  induction msgs with
  | nil => simp
  | cons mm rest ih =>
    intro t
    simp only [List.foldl_cons, List.length_cons]
    rw [ih, updateTally_contrib_sum]
    omega


/-- C5: `leaderboard()` returns one entry per distinct author; each entry's
points equal the sum over the categories of its breakdown count times the fixed
`POINT_RULES` value, and its contributions equal the sum of its category
counts; the contributions of all entries sum to the number of messages; and
the entries are sorted by points descending. -/
theorem leaderboard_spec (msgs : List Message) (h : msgs ≠ []) :
    ∃ lb, Countdown.leaderboard msgs = .ok lb ∧
      (lb.map LBEntry.author).Nodup ∧
      (∀ a : Int, a ∈ lb.map LBEntry.author ↔ a ∈ msgs.map Message.author_id) ∧
      (∀ e ∈ lb, e.points = (Category.all.map (fun c => e.breakdown c * c.points)).sum ∧
        e.contributions = (Category.all.map e.breakdown).sum) ∧
      (lb.map LBEntry.contributions).sum = msgs.length ∧
      List.Pairwise (fun e1 e2 => e2.points ≤ e1.points) lb := by
  rcases msgs with _ | ⟨first, rest⟩
  · exact absurd rfl h
  · obtain ⟨primesN, hp⟩ : ∃ pn, getPrimes first.number.toNat = some pn := by
      obtain ⟨l, hl, -⟩ := getPrimes_correct first.number.toNat
      exact ⟨l, hl⟩
    obtain ⟨tally, htally⟩ : ∃ t, (first :: rest).foldl
        (fun t mm => updateTally t mm.author_id
          (classify first.number (primesN.map (fun p => (p : Int))) mm.number)) [] = t :=
      ⟨_, rfl⟩
    obtain ⟨lb, hlbdef⟩ : ∃ l, (tally.map (fun e => mkEntry e.1 e.2)).mergeSort
        (fun e1 e2 => decide (e2.points ≤ e1.points)) = l := ⟨_, rfl⟩
    have hlb : Countdown.leaderboard (first :: rest) = .ok lb := by
      simp only [Countdown.leaderboard, hp, htally, hlbdef]
    have h1 : (tally.map Prod.fst).Nodup := by
      rw [← htally]
      exact foldl_tally_nodup _ (first :: rest) [] (by simp)
    have hmm : ∀ x, x ∈ tally.map Prod.fst ↔ x ∈ (first :: rest).map Message.author_id := by
      intro x
      rw [← htally, foldl_tally_mem]
      simp
    have hcontrib : (tally.map (fun e => (Category.all.map e.2).sum)).sum =
        (first :: rest).length := by
      rw [← htally, foldl_tally_contrib]
      simp
    have hperm : lb.Perm (tally.map (fun e => mkEntry e.1 e.2)) := by
      rw [← hlbdef]
      exact List.mergeSort_perm _ _
    have hmapA : (tally.map (fun e => mkEntry e.1 e.2)).map LBEntry.author =
        tally.map Prod.fst := by
      rw [List.map_map]
      rfl
    have hmapC : (tally.map (fun e => mkEntry e.1 e.2)).map LBEntry.contributions =
        tally.map (fun e => (Category.all.map e.2).sum) := by
      rw [List.map_map]
      rfl
    refine ⟨lb, hlb, ?_, ?_, ?_, ?_, ?_⟩
    · refine ((hperm.map LBEntry.author).nodup_iff).mpr ?_
      rw [hmapA]
      exact h1
    · intro a
      rw [(hperm.map LBEntry.author).mem_iff, hmapA, hmm]
    · intro e he
      have he2 := hperm.mem_iff.mp he
      obtain ⟨⟨a, bd⟩, hmem, rfl⟩ := List.mem_map.mp he2
      exact ⟨rfl, rfl⟩
    · calc (lb.map LBEntry.contributions).sum
          = ((tally.map (fun e => mkEntry e.1 e.2)).map LBEntry.contributions).sum :=
            (hperm.map LBEntry.contributions).sum_eq
        _ = (tally.map (fun e => (Category.all.map e.2).sum)).sum := by rw [hmapC]
        _ = (first :: rest).length := hcontrib
    · have htrans : ∀ (a b c : LBEntry),
          (fun e1 e2 : LBEntry => decide (e2.points ≤ e1.points)) a b = true →
          (fun e1 e2 : LBEntry => decide (e2.points ≤ e1.points)) b c = true →
          (fun e1 e2 : LBEntry => decide (e2.points ≤ e1.points)) a c = true := by
        intro a b c h1 h2
        simp only [decide_eq_true_eq] at h1 h2 ⊢
        omega
      have htotal : ∀ (a b : LBEntry),
          ((fun e1 e2 : LBEntry => decide (e2.points ≤ e1.points)) a b ||
            (fun e1 e2 : LBEntry => decide (e2.points ≤ e1.points)) b a) = true := by
        intro a b
        simp only [Bool.or_eq_true, decide_eq_true_eq]
        omega
      have hs := @List.sorted_mergeSort LBEntry
        (fun e1 e2 => decide (e2.points ≤ e1.points)) htrans htotal
        (tally.map (fun e => mkEntry e.1 e.2))
      rw [hlbdef] at hs
      exact hs.imp (fun hab => by simpa using hab)

theorem leaderboard_spec_witness :
    ∃ lb, Countdown.leaderboard [⟨1, 0, 3⟩] = .ok lb ∧
      (lb.map LBEntry.author).Nodup ∧
      (∀ a : Int, a ∈ lb.map LBEntry.author ↔
        a ∈ ([⟨1, 0, 3⟩] : List Message).map Message.author_id) ∧
      (∀ e ∈ lb, e.points = (Category.all.map (fun c => e.breakdown c * c.points)).sum ∧
        e.contributions = (Category.all.map e.breakdown).sum) ∧
      (lb.map LBEntry.contributions).sum = ([⟨1, 0, 3⟩] : List Message).length ∧
      List.Pairwise (fun e1 e2 => e2.points ≤ e1.points) lb :=
  leaderboard_spec [⟨1, 0, 3⟩] (by decide)

end Theorems

end CountdownBot
